import Mathlib

/-!
Formal model of the deep-immutability engine of `tests/util/freeze.py`
and `tests/util/immutable.py`.

The Python values handled by the freezing subsystem are modelled as an
arena-style heap: a `List PVal` indexed by `Nat` object identities
(`id(o)` in Python).  Mutation of an object's `__dict__` is a `List.set`
on the heap; creation of a new object is an append.  Functions that can
recurse unboundedly (the reference graph may be cyclic) take a fuel
parameter and return `none` on fuel exhaustion, which models
non-termination / unbounded recursion of the Python original.

Modelled value kinds (the kinds the verified claims quantify over):
numbers (`atom`), strings (`pystr`), `slice` objects (`pyslice`, a member
of `frozen_types` that is unhashable in Python 2), mutable `list`, `tuple`,
mutable `dict`, mutable `set`, `frozendict`, `frozenset`, plain instances
with a `__dict__` (`obj`), and the `_Frozen`/`Frozen` proxy (`frozenW`).
`numpy.ndarray` and callables are not modelled: no claim quantifies over
them, and their branches in the source cannot fire on the modelled values.
-/

inductive PVal where
  | atom (n : Int)                            -- numbers (Number ⊆ frozen_types)
  | pystr (s : String)                        -- basestring ⊆ frozen_types
  | pyslice (lo hi : Int)                     -- slice ⊆ frozen_types, unhashable
  | list (elems : List Nat)                   -- mutable sequence of object ids
  | tup (elems : List Nat)                    -- tuple (NOT a frozen type)
  | dict (entries : List (Nat × Nat))         -- mutable mapping (key id, value id)
  | pset (elems : List Nat)                   -- mutable set
  | fdict (entries : List (Nat × Nat))        -- frozendict (NOT a frozen type)
  | fset (elems : List Nat)                   -- frozenset ⊆ frozen_types
  | obj (ty : String) (attrs : List (String × Nat))  -- instance with a __dict__
  | frozenW (v : Nat)                         -- the _Frozen / Frozen wrapper
  deriving DecidableEq

/-- Freezing state: the object heap plus the identity-keyed `memo` dict of one
`deepfreeze` invocation (`memo = memo if memo is not None else {}`). -/
structure St where
  heap : List PVal
  memo : List (Nat × Nat)
  deriving DecidableEq

/-- Allocate a fresh object; its identity is the previous heap length. -/
def alloc (st : St) (v : PVal) : St × Nat :=
  (⟨st.heap ++ [v], st.memo⟩, st.heap.length)

/-- Overwrite the object stored at identity `i` (in-place mutation of `o.__dict__`). -/
def setHeap (st : St) (i : Nat) (v : PVal) : St :=
  ⟨st.heap.set i v, st.memo⟩

/-- `memo[_id] = r` -/
def memoInsert (st : St) (i r : Nat) : St :=
  ⟨st.heap, (i, r) :: st.memo⟩

/-- `isinstance(o, frozen_types)`: `frozen_types` is the set of
`copy._deepcopy_atomic` types extended with `Number, basestring, buffer,
memoryview, slice, frozenset` and the wrapper class itself (freeze.py lines
43-51 and 106; immutable.py lines 74-82 and 169).  `tuple` and `frozendict`
are deliberately NOT in it ("tuple, frozendict ... can contain mutable
elements, shouldn't be assumed immutable"). -/
def isFrozenType : PVal → Bool
  | .atom _ | .pystr _ | .pyslice _ _ | .fset _ | .frozenW _ => true
  | _ => false

/-- `protected_methods` of freeze.py lines 28-39 / immutable.py lines 59-70:
the two property operations, then `'__%s%s__' % (verb, obj)` over
`mutetargets` × `{set, del}`, then `'__i%s__' % method` over `ameths`. -/
def mutetargets : List (String × String) :=
  [("attr", "attribute"), ("item", "item"), ("slice", "slice")]

def verbNames : List (String × String) :=
  [("set", "assignment"), ("del", "deletion")]

def ameths : List String :=
  ["mul", "div", "truediv", "floordiv", "mod", "pow", "lshift", "rshift",
   "and", "xor", "or", "add", "concat", "repeat", "sub"]

def protected_methods : List (String × String) :=
  [("__set__", "property assignment"), ("__delete__", "property deletion")]
  ++ (mutetargets.flatMap fun ot =>
        verbNames.map fun vv =>
          ("__" ++ vv.1 ++ ot.1 ++ "__", ot.2 ++ " " ++ vv.2))
  ++ ameths.map fun m => ("__i" ++ m ++ "__", "in-place \"" ++ m ++ "\"")

/-- Structural equality test of Python values (`==`), fuel-indexed.
Follows Python semantics on the modelled values: the identity fast path of
`PyObject_RichCompareBool`; numbers, strings, slices by content; sequences
pointwise with `list == tuple` being `False`; mappings and sets pointwise in
the (deterministic) iteration order of this embedding, which is the order in
which the freezer rebuilds them — a sound strengthening of Python's
order-insensitive `dict`/`set` equality, used only positively; `_Frozen`
wrappers by `self._value == other._value` (freeze.py lines 100-101);
plain instances by identity (default `__eq__`); everything else `False`
(in particular a wrapper never equals a non-wrapper: `getattr(other,
'_value', unequal)` yields the `UnEqual` sentinel, which equals nothing). -/
def pyEqList (f : Nat → Nat → Bool) : List Nat → List Nat → Bool
  | [], [] => true
  | x :: xs, y :: ys => f x y && pyEqList f xs ys
  | _, _ => false

def pyEqPairs (f : Nat → Nat → Bool) : List (Nat × Nat) → List (Nat × Nat) → Bool
  | [], [] => true
  | p :: ps, q :: qs => f p.1 q.1 && f p.2 q.2 && pyEqPairs f ps qs
  | _, _ => false

/-- The value-level dispatch of `==` on two already-fetched values, with
`f` comparing member references. -/
def pyEqVal (f : Nat → Nat → Bool) : PVal → PVal → Bool
  | .atom x, .atom y => decide (x = y)
  | .pystr x, .pystr y => decide (x = y)
  | .pyslice a1 b1, .pyslice a2 b2 => decide (a1 = a2) && decide (b1 = b2)
  | .list xs, .list ys => pyEqList f xs ys
  | .tup xs, .tup ys => pyEqList f xs ys
  | .dict xs, .dict ys => pyEqPairs f xs ys
  | .dict xs, .fdict ys => pyEqPairs f xs ys
  | .fdict xs, .dict ys => pyEqPairs f xs ys
  | .fdict xs, .fdict ys => pyEqPairs f xs ys
  | .pset xs, .pset ys => pyEqList f xs ys
  | .pset xs, .fset ys => pyEqList f xs ys
  | .fset xs, .pset ys => pyEqList f xs ys
  | .fset xs, .fset ys => pyEqList f xs ys
  | .frozenW x, .frozenW y => f x y
  | _, _ => false

def pyEq (h : List PVal) : Nat → Nat → Nat → Bool
  | 0, _, _ => false
  | fuel + 1, i, j =>
    if i = j then true
    else
      match h[i]?, h[j]? with
      | some a, some b => pyEqVal (pyEq h fuel) a b
      | _, _ => false

/-- Result of Python `hash()` on the modelled values: an `Int`, or the
`TypeError('unhashable type: ...')` raised by mutable containers and by
`slice` objects in Python 2 (`fuelOut` models a non-terminating hash of a
cyclic structure). -/
inductive HashErr where
  | fuelOut
  | unhashableType (ty : String)
  deriving DecidableEq

/-- A deterministic stand-in for Python's string hash. -/
def strHash (s : String) : Int :=
  Int.ofNat (s.foldl (fun a c => a * 31 + c.toNat) 7)

def hashFold (seed : Int) (f : Nat → Except HashErr Int) :
    List Nat → Except HashErr Int
  | [] => .ok seed
  | x :: xs => do
    let hx ← f x
    let hr ← hashFold seed f xs
    .ok (hr * 1000003 + hx)

def hashFoldPairs (seed : Int) (f : Nat → Except HashErr Int) :
    List (Nat × Nat) → Except HashErr Int
  | [] => .ok seed
  | p :: ps => do
    let hk ← f p.1
    let hv ← f p.2
    let hr ← hashFoldPairs seed f ps
    .ok (hr * 1000003 + hk * 257 + hv)

/-- Python `hash(o)` on the modelled values.  Numbers hash to themselves,
strings structurally; `slice` and the mutable containers raise
`TypeError('unhashable type: ...')`; tuples, frozendicts and frozensets
combine their members' hashes; a plain instance uses the default
identity-based hash; the `_Frozen`/`Frozen` wrapper delegates to the hash
of the wrapped value (`__hash__ = hash(self._value)`, freeze.py lines
97-98 / immutable.py lines 163-164). -/
def pyHash (h : List PVal) : Nat → Nat → Except HashErr Int
  | 0, _ => .error .fuelOut
  | fuel + 1, i =>
    match h[i]? with
    | none => .error .fuelOut
    | some v =>
      match v with
      | .atom n => .ok n
      | .pystr s => .ok (strHash s)
      | .pyslice _ _ => .error (.unhashableType "slice")
      | .list _ => .error (.unhashableType "list")
      | .dict _ => .error (.unhashableType "dict")
      | .pset _ => .error (.unhashableType "set")
      | .tup es => hashFold 97 (pyHash h fuel) es
      | .fdict es => hashFoldPairs 131 (pyHash h fuel) es
      | .fset es => hashFold 173 (pyHash h fuel) es
      | .obj _ _ => .ok (Int.ofNat i)
      | .frozenW v' => pyHash h fuel v'

namespace Freeze

/-- `mutable_attributes = {rv_frozen: set(['kwds'])}` (freeze.py line 23),
keyed by type name; `get_mutable_attributes` (lines 69-71) collects the
exempted attribute names for an instance's type. -/
def mutable_attributes : List (String × List String) := [("rv_frozen", ["kwds"])]

def get_mutable_attributes (ty : String) : List String :=
  (mutable_attributes.lookup ty).getD []

/-- `_freeze` (freeze.py lines 109-128): freeze only the top level of a
collection.  Frozen types are returned unchanged; a mapping becomes a fresh
`frozendict`, a set a fresh `frozenset`, a sequence a fresh `tuple`;
everything else is wrapped in `_Frozen` (holding the identity of the
wrapped object). -/
def _freeze (st : St) (i : Nat) : Option (St × Nat) := do
  let v ← st.heap[i]?
  match v with
  | .atom _ | .pystr _ | .pyslice _ _ | .fset _ | .frozenW _ => some (st, i)
  | .dict es | .fdict es => some (alloc st (.fdict es))
  | .pset es => some (alloc st (.fset es))
  | .list es | .tup es => some (alloc st (.tup es))
  | .obj _ _ => some (alloc st (.frozenW i))

/-- Freeze each element of a list of references with the recursive freezer
`f`, threading the state left to right (the generator argument of
`_freeze(list(f(e) for e in o))`). -/
def freezeList (f : St → Nat → Option (St × Nat)) :
    St → List Nat → Option (St × List Nat)
  | st, [] => some (st, [])
  | st, x :: xs => do
    let (st1, y) ← f st x
    let (st2, ys) ← freezeList f st1 xs
    some (st2, y :: ys)

/-- `dict((f(k), f(v)) for k, v in o.iteritems())`: keys then values. -/
def freezePairs (f : St → Nat → Option (St × Nat)) :
    St → List (Nat × Nat) → Option (St × List (Nat × Nat))
  | st, [] => some (st, [])
  | st, p :: ps => do
    let (st1, k) ← f st p.1
    let (st2, v) ← f st1 p.2
    let (st3, qs) ← freezePairs f st2 ps
    some (st3, (k, v) :: qs)

/-- The attribute loop of `deepfreeze` (freeze.py lines 159-161):
`for k, v in o.__dict__.iteritems(): if k not in mutables:
o.__dict__[k] = f(v)`.  The source assigns each frozen attribute as it is
produced; this model collects the new attribute list and writes it once —
indistinguishable on every terminating run, because only `deepfreeze(o)`
itself writes `o`'s heap cell and a descendant that could read `o` mid-loop
makes the recursion cyclic, hence non-terminating in both. -/
def freezeAttrs (f : St → Nat → Option (St × Nat)) (mutables : List String) :
    St → List (String × Nat) → Option (St × List (String × Nat))
  | st, [] => some (st, [])
  | st, (k, v) :: rest =>
    if k ∈ mutables then do
      let (st1, r) ← freezeAttrs f mutables st rest
      some (st1, (k, v) :: r)
    else do
      let (st1, v') ← f st v
      let (st2, r) ← freezeAttrs f mutables st1 rest
      some (st2, (k, v') :: r)

/-- `deepfreeze` (freeze.py lines 131-165).  Faithful points: the memo is
consulted on entry but an entry is RECORDED only on the fall-through path
(line 162), which containers return before reaching (lines 150-154), and
only after an object's attributes have been frozen; containers are rebuilt
through `_freeze` on a freshly built intermediate `dict`/`set`/`list`; an
object's `__dict__` is overwritten in place, skipping the names from
`get_mutable_attributes`. -/
def deepfreeze : Nat → St → Nat → Option (St × Nat)
  | 0, _, _ => none
  | fuel + 1, st, i =>
    match st.memo.lookup i with
    | some j => some (st, j)
    | none => do
      let v ← st.heap[i]?
      match v with
      | .atom _ | .pystr _ | .pyslice _ _ | .fset _ | .frozenW _ => some (st, i)
      | .dict es | .fdict es =>
        let (st1, es') ← freezePairs (deepfreeze fuel) st es
        let (st2, d) := alloc st1 (.dict es')
        _freeze st2 d
      | .pset es =>
        let (st1, es') ← freezeList (deepfreeze fuel) st es
        let (st2, s) := alloc st1 (.pset es')
        _freeze st2 s
      | .list es | .tup es =>
        let (st1, es') ← freezeList (deepfreeze fuel) st es
        let (st2, l) := alloc st1 (.list es')
        _freeze st2 l
      | .obj ty attrs =>
        let (st1, attrs') ← freezeAttrs (deepfreeze fuel) (get_mutable_attributes ty) st attrs
        let st2 := setHeap st1 i (.obj ty attrs')
        let (st3, r) ← _freeze st2 i
        some (memoInsert st3 i r, r)

/-- `_Frozen.__eq__` (freeze.py lines 100-101):
`self._value == getattr(other, '_value', unequal)`.  `i` is the wrapper's
identity; when `other` is not itself a wrapper the comparison is against the
`UnEqual` sentinel, whose `__eq__` is constantly `False` (and the default
`__eq__` of the wrapped value does not recognise it either). -/
def Frozen_eq (h : List PVal) (fuel : Nat) (i other : Nat) : Option Bool := do
  let w ← h[i]?
  match w with
  | .frozenW v =>
    match h[other]? with
    | some (.frozenW v') => some (pyEq h fuel v v')
    | _ => some false
  | _ => none

end Freeze

/-- Python runtime errors propagated to the caller of the construction
protocol. -/
inductive PyErr where
  | typeError (msg : String)
  | attributeError (name : String)
  deriving DecidableEq

/-- A constructed instance: its heap identity plus whether
`protect_getattr` has installed the per-instance guard (the lock flag). -/
structure PyInst where
  oid : Nat
  guarded : Bool
  deriving DecidableEq

/-- Instance attribute read from the instance `__dict__`. -/
def instAttr (h : List PVal) (iid : Nat) (name : String) : Option Nat :=
  match h[iid]? with
  | some (.obj _ attrs) => attrs.lookup name
  | _ => none

/-- Update-or-append an entry of an attribute dict. -/
def setAttrList : List (String × Nat) → String → Nat → List (String × Nat)
  | [], n, v => [(n, v)]
  | (k, w) :: rest, n, v =>
    if k = n then (n, v) :: rest else (k, w) :: setAttrList rest n v

/-- `object.__setattr__`: write the instance `__dict__` in place. -/
def objSetAttr (st : St) (iid : Nat) (name : String) (v : Nat) : St :=
  match st.heap[iid]? with
  | some (.obj ty attrs) => setHeap st iid (.obj ty (setAttrList attrs name v))
  | _ => st

namespace Immut

/-- `freeze` (immutable.py lines 95-110): frozen types unchanged, mapping →
`frozendict`, set → `frozenset`, sequence → `tuple`; a callable would be
wrapped so that its results are frozen too (no callables occur among the
modelled values); everything else is wrapped in `Frozen`.  Unlike
freeze.py's `_freeze` there is no `ndarray` branch. -/
def freeze (st : St) (i : Nat) : Option (St × Nat) := do
  let v ← st.heap[i]?
  match v with
  | .atom _ | .pystr _ | .pyslice _ _ | .fset _ | .frozenW _ => some (st, i)
  | .dict es | .fdict es => some (alloc st (.fdict es))
  | .pset es => some (alloc st (.fset es))
  | .list es | .tup es => some (alloc st (.tup es))
  | .obj _ _ => some (alloc st (.frozenW i))

/-- The attribute loop of immutable.py's `deepfreeze` (lines 134-138):
`for k, v in d.iteritems(): d[k] = deepfreeze(v)`.  The inner call does not
pass `memo`, so each attribute value is frozen with a FRESH memo (the
callback `df` receives only the heap), and there is no exclusion registry
in this variant. -/
def freezeAttrsFresh (df : List PVal → Nat → Option (List PVal × Nat)) :
    List PVal → List (String × Nat) → Option (List PVal × List (String × Nat))
  | hp, [] => some (hp, [])
  | hp, (k, v) :: rest => do
    let (h1, v') ← df hp v
    let (h2, r) ← freezeAttrsFresh df h1 rest
    some (h2, (k, v') :: r)

/-- `deepfreeze` (immutable.py lines 116-142).  Same shape as freeze.py's:
memo consulted on entry, recorded only on the fall-through path (line 139)
after the attribute loop; containers rebuilt through `freeze` and returned
without being memoized. -/
def deepfreeze : Nat → St → Nat → Option (St × Nat)
  | 0, _, _ => none
  | fuel + 1, st, i =>
    match st.memo.lookup i with
    | some j => some (st, j)
    | none => do
      let v ← st.heap[i]?
      match v with
      | .atom _ | .pystr _ | .pyslice _ _ | .fset _ | .frozenW _ => some (st, i)
      | .dict es | .fdict es =>
        let (st1, es') ← Freeze.freezePairs (deepfreeze fuel) st es
        let (st2, d) := alloc st1 (.dict es')
        freeze st2 d
      | .pset es =>
        let (st1, es') ← Freeze.freezeList (deepfreeze fuel) st es
        let (st2, s) := alloc st1 (.pset es')
        freeze st2 s
      | .list es | .tup es =>
        let (st1, es') ← Freeze.freezeList (deepfreeze fuel) st es
        let (st2, l) := alloc st1 (.list es')
        freeze st2 l
      | .obj ty attrs =>
        let (h1, attrs') ← freezeAttrsFresh
          (fun hp v => (deepfreeze fuel ⟨hp, []⟩ v).map fun p => (p.1.heap, p.2))
          st.heap attrs
        let st2 := setHeap ⟨h1, st.memo⟩ i (.obj ty attrs')
        let (st3, r) ← freeze st2 i
        some (memoInsert st3 i r, r)

/-- The wrapper `__getattribute__` built by `MetaImmutable.protect_getattr`
(immutable.py lines 180-191): looking up a protected name raises
`TypeError('%s does not support %s' % (klass, pname))`; any other name is
forwarded (and its value frozen). -/
def guard_getattribute (klass : String) (name : String) : Except PyErr Unit :=
  match protected_methods.lookup name with
  | some pname => .error (.typeError (klass ++ " does not support " ++ pname))
  | none => .ok ()

/-- CPython semantics of `inst.name = value` on an instance of an
`Immutable` subclass.  Attribute assignment invokes
`type(inst).__setattr__`; special-method lookup on new-style classes reads
only the type (and its bases), never the instance `__dict__`.  No class in
immutable.py overrides `__setattr__` (`protect_getattr` only installs a
`__getattribute__` wrapper as an INSTANCE attribute, lines 190-191), so
`object.__setattr__` runs and writes the instance `__dict__`, whether or
not the lock flag is set. -/
def setattr_dispatch (st : St) (inst : PyInst) (name : String) (v : Nat) :
    Except PyErr St :=
  .ok (objSetAttr st inst.oid name v)

/-- The ordinary `__init__` of the modelled `Immutable` subclasses: like
`ImmutableTest.__init__` (test_immutable.py lines 11-12) it stores each
positional argument under a fixed attribute name (`a0`, `a1`, ...) and
each keyword argument under its keyword. -/
def argAttrs : Nat → List Nat → List (String × Nat)
  | _, [] => []
  | n, v :: vs => ("a" ++ toString n, v) :: argAttrs (n + 1) vs

def runInit (st : St) (iid : Nat) (ty : String) (args : List Nat)
    (kwargs : List (String × Nat)) : St :=
  setHeap st iid (.obj ty (argAttrs 0 args ++ kwargs))

/-- Allocate the `**kwargs` dict's string keys. -/
def allocKwPairs : St → List (String × Nat) → St × List (Nat × Nat)
  | st, [] => (st, [])
  | st, (k, v) :: rest =>
    let (st1, kId) := alloc st (.pystr k)
    let (st2, ps) := allocKwPairs st1 rest
    (st2, (kId, v) :: ps)

/-- Closed form of the entry ids produced by `allocKwPairs` when the keys
are allocated starting at heap position `base`. -/
def kwPairsFrom : Nat → List (String × Nat) → List (Nat × Nat)
  | _, [] => []
  | base, (_, v) :: rest => (base, v) :: kwPairsFrom (base + 1) rest

/-- Materialize the `(args, kwargs)` pair of a constructor call: the `args`
tuple, the `kwargs` dict (string keys), and the pair tuple passed to
`deepfreeze((args, kwargs))`. -/
def callState (klass : String) (st0 : St) (args : List Nat)
    (kwargs : List (String × Nat)) : St × Nat × Nat :=
  let (stA, iid) := alloc st0 (.obj klass [])
  let stB := runInit stA iid klass args kwargs
  let (stC, aId) := alloc stB (.tup args)
  let (stD, kwPairs) := allocKwPairs stC kwargs
  let (stE, kId) := alloc stD (.dict kwPairs)
  let (stF, pId) := alloc stE (.tup [aId, kId])
  (stF, iid, pId)

/-- `self.__dict__ = dict((k, deepfreeze(v)) for k, v in
self.__dict__.iteritems())` (immutable.py lines 230-231): every attribute
value re-frozen with a fresh memo, the instance `__dict__` replaced. -/
def rebuildDict (fuel : Nat) (st : St) (iid : Nat) : Option St :=
  match st.heap[iid]? with
  | some (.obj ty attrs) => do
    let (h1, attrs') ← freezeAttrsFresh
      (fun hp v => (deepfreeze fuel ⟨hp, []⟩ v).map fun p => (p.1.heap, p.2))
      st.heap attrs
    some (setHeap ⟨h1, st.memo⟩ iid (.obj ty attrs'))
  | _ => none

/-- `MetaImmutable.__call__` plus `__initialize_instance__` (immutable.py
lines 193-233): allocate, run `__init__`, then — only when `__DEBUG__` is
set — capture `deepfreeze((args, kwargs))` as `__initial_values__`, hash
it (an `unhashable type` failure becomes
`TypeError('Immutable %s initialized with unhashable arguments')`, naming
only the class), store the hash under the name-mangled instance attribute
`_MetaImmutable__hash` (the assignment `self.__hash = ...` occurs
textually inside `class MetaImmutable`), install the guard (lock flag),
and re-freeze the whole `__dict__`.  With `__DEBUG__` false, only the raw
`(args, kwargs)` pair is recorded and nothing is frozen, hashed or
guarded.  `none` models non-termination. -/
def construct (debug : Bool) (klass : String) (fuel : Nat) (st0 : St)
    (args : List Nat) (kwargs : List (String × Nat)) :
    Option (Except PyErr (St × PyInst)) :=
  let stD := (callState klass st0 args kwargs).1
  let iid := (callState klass st0 args kwargs).2.1
  let pId := (callState klass st0 args kwargs).2.2
  if debug then
    match Immut.deepfreeze fuel ⟨stD.heap, []⟩ pId with
    | none => none
    | some (st6, ivId) =>
      let stE := objSetAttr ⟨st6.heap, stD.memo⟩ iid "__initial_values__" ivId
      match pyHash stE.heap fuel ivId with
      | .error .fuelOut => none
      | .error (.unhashableType _) =>
        some (.error (.typeError
          ("Immutable " ++ klass ++ " initialized with unhashable arguments")))
      | .ok hv =>
        let (stF, hId) := alloc stE (.atom hv)
        let stG := objSetAttr stF iid "_MetaImmutable__hash" hId
        match rebuildDict fuel stG iid with
        | none => none
        | some stH => some (.ok (stH, ⟨iid, true⟩))
  else
    let stE := objSetAttr stD iid "__initial_values__" pId
    some (.ok (stE, ⟨iid, false⟩))

/-- `Immutable.__hash__` (immutable.py lines 257-258): `return self.__hash`.
Python name mangling resolves `__hash` inside `class Immutable` to
`_Immutable__hash`, whereas `__initialize_instance__` — textually inside
`class MetaImmutable` — stored the computed hash under
`_MetaImmutable__hash`; the read misses and raises `AttributeError`. -/
def Immutable_hash (h : List PVal) (iid : Nat) : Except PyErr Int :=
  match instAttr h iid "_Immutable__hash" with
  | some hid =>
    match h[hid]? with
    | some (.atom v) => .ok v
    | _ => .error (.attributeError "_Immutable__hash")
  | none => .error (.attributeError "_Immutable__hash")

/-- `Immutable.__eq__` (immutable.py lines 260-262): compare
`self.__initial_values__` against `getattr(other, '__initial_values__',
UnusedObject)`; an `other` without captured values is unequal. -/
def Immutable_eq (h : List PVal) (fuel : Nat) (a b : Nat) : Option Bool :=
  match instAttr h a "__initial_values__" with
  | none => none
  | some x =>
    match instAttr h b "__initial_values__" with
    | none => some false
    | some y => some (pyEq h fuel x y)

/-- `Immutable.__getstate__` (immutable.py lines 243-250): pickling stores
exactly `self.__initial_values__`, nothing else of the instance state. -/
def Immutable_getstate (h : List PVal) (iid : Nat) : Option Nat :=
  instAttr h iid "__initial_values__"

/-- Read back the kwargs mapping of a persisted state (string keys). -/
def readKwStrings (h : List PVal) : List (Nat × Nat) → Option (List (String × Nat))
  | [] => some []
  | (kId, v) :: rest =>
    match h[kId]? with
    | some (.pystr s) =>
      match readKwStrings h rest with
      | some r => some ((s, v) :: r)
      | none => none
    | _ => none

/-- `Immutable.__setstate__` (immutable.py lines 252-255) as driven by
unpickling: unpack `args, kw = state` and re-run the full
`__initialize_instance__` pipeline on them (allocation of the bare
instance happens during unpickling; `construct` models allocation plus
that pipeline). -/
def Immutable_restore (debug : Bool) (klass : String) (fuel : Nat) (st : St)
    (sid : Nat) : Option (Except PyErr (St × PyInst)) :=
  match st.heap[sid]? with
  | some (.tup [aId, kId]) =>
    match st.heap[aId]?, st.heap[kId]? with
    | some (.tup args), some (.fdict kwPairs) =>
      match readKwStrings st.heap kwPairs with
      | some kwargs => construct debug klass fuel st args kwargs
      | none => none
    | _, _ => none
  | _ => none

end Immut

/-- Heap evolution across one freezing pass: the heap only grows, and an
existing cell changes only if it holds an instance (`deepfreeze` mutates
only `o.__dict__` of objects, in place; everything else is append-only). -/
def HeapExt (h h' : List PVal) : Prop :=
  h.length ≤ h'.length ∧
  ∀ (i : Nat) (v : PVal), h[i]? = some v →
    h'[i]? = some v ∨
    ((∃ ty attrs, v = PVal.obj ty attrs) ∧
     ∃ (ty' : String) (attrs' : List (String × Nat)),
       h'[i]? = some (PVal.obj ty' attrs'))

/-- Fuel-indexed check that a cell holds a fully frozen result: a frozen
atomic type, or a tuple/frozendict of frozen components.  `frozenset`s and
wrappers are frozen types regardless of content: `deepfreeze` never
re-enters them. -/
def isFrozenVal (h : List PVal) : Nat → Nat → Bool
  | 0, _ => false
  | n + 1, i =>
    match h[i]? with
    | some (.atom _) | some (.pystr _) | some (.pyslice _ _)
    | some (.fset _) | some (.frozenW _) => true
    | some (.tup es) => es.all (isFrozenVal h n)
    | some (.fdict es) => es.all fun p => isFrozenVal h n p.1 && isFrozenVal h n p.2
    | _ => false

/-- Invariant of the freezing pass: every memoized result is frozen. -/
def MemoFrozen (st : St) : Prop :=
  ∀ p ∈ st.memo, ∃ n, isFrozenVal st.heap n p.2 = true

/-! ## Claim theorems -/

/-- C1: the claim says a reference cycle makes freezing fail fatally with a
cycle error instead of looping or overflowing.  The code has no cycle check
at all: no memo entry is ever recorded before recursing into children, so
`deepfreeze` on the self-referential list `l = []; l.append(l)` recurses
unboundedly — it exhausts every recursion bound (a stack overflow in
CPython) and never produces a result or a cycle error. -/
theorem deepfreeze_cyclic_list_diverges (fuel : Nat) :
    Freeze.deepfreeze fuel ⟨[PVal.list [0]], []⟩ 0 = none := by
  induction fuel with
  | zero => rfl
  | succ n ih => simp [Freeze.deepfreeze, Freeze.freezeList, List.lookup, ih]

/-- C2 counterexample: freezing `g = (x, x)` with `x = [0]` a mutable list
shared twice does NOT yield identity-equal components.  Containers are
never memoized (freeze.py records `memo[_id]` only on the fall-through
path, line 162), so `x` is frozen twice: the result tuple's components are
the distinct fresh identities 4 and 6 (only value-equal). -/
theorem shared_list_frozen_twice :
    ∃ st' : St,
      Freeze.deepfreeze 4 ⟨[PVal.atom 0, PVal.list [0], PVal.tup [1, 1]], []⟩ 2
          = some (st', 8)
        ∧ st'.heap[8]? = some (PVal.tup [4, 6])
        ∧ (4 : Nat) ≠ 6
        ∧ pyEq st'.heap 3 4 6 = true := by
  exact ⟨_, rfl, by decide, by decide, by decide⟩

/-- C2 amended: within one `deepfreeze` pass only non-container objects
(the fall-through case with a `__dict__`) are memoized, so only their
sharing is preserved: an object referenced twice freezes to the same
wrapper identity, while a mutable sequence referenced twice is frozen once
per reference, yielding value-equal but distinct frozen objects. -/
theorem sharing_memo_objects_only :
    (∃ st' : St,
      Freeze.deepfreeze 4 ⟨[PVal.obj "T" [], PVal.tup [0, 0]], []⟩ 1 = some (st', 4)
        ∧ st'.heap[4]? = some (PVal.tup [2, 2]))
    ∧ (∃ st' : St,
      Freeze.deepfreeze 4 ⟨[PVal.atom 1, PVal.list [0], PVal.tup [1, 1]], []⟩ 2
          = some (st', 8)
        ∧ st'.heap[8]? = some (PVal.tup [4, 6])
        ∧ pyEq st'.heap 3 4 6 = true) := by
  exact ⟨⟨_, rfl, by decide⟩, ⟨_, rfl, by decide, by decide⟩⟩

/-- C8 counterexample: a frozen (wrapped) reference does NOT compare equal
to its unwrapped counterpart.  `_Frozen.__eq__` compares `self._value`
with `getattr(other, '_value', unequal)`; when `other` is the raw value
itself the comparison is against the `UnEqual` sentinel and yields
`False`, even though `v == v` holds. -/
theorem frozen_wrapper_neq_unwrapped :
    Freeze.Frozen_eq [PVal.obj "T" [], PVal.frozenW 0] 3 1 0 = some false
    ∧ pyEq [PVal.obj "T" [], PVal.frozenW 0] 3 0 0 = true := by
  decide

/-- C8 amended: the wrapper's hash equals the hash of the wrapped value,
and the wrapper's equality delegates to equality of the wrapped values
whenever the other operand is itself a wrapper (exposes `_value`):
`wrap(v) == wrap(w)` iff `v == w`.  A wrapper never compares equal to the
bare unwrapped value. -/
theorem frozen_wrapper_eq_hash_delegate (h : List PVal) (fuel i j a b : Nat)
    (hi : h[i]? = some (PVal.frozenW a))
    (hj : h[j]? = some (PVal.frozenW b)) :
    Freeze.Frozen_eq h fuel i j = some (pyEq h fuel a b)
    ∧ pyHash h (fuel + 1) i = pyHash h fuel a := by
  constructor
  · simp [Freeze.Frozen_eq, hi, hj]
  · simp [pyHash, hi]

/-- Witness for the C8 amended theorem at a concrete heap. -/
theorem frozen_wrapper_eq_hash_delegate_witness :
    Freeze.Frozen_eq [PVal.atom 5, PVal.frozenW 0, PVal.frozenW 0] 2 1 2
        = some (pyEq [PVal.atom 5, PVal.frozenW 0, PVal.frozenW 0] 2 0 0)
    ∧ pyHash [PVal.atom 5, PVal.frozenW 0, PVal.frozenW 0] 3 1
        = pyHash [PVal.atom 5, PVal.frozenW 0, PVal.frozenW 0] 2 0 :=
  frozen_wrapper_eq_hash_delegate _ 2 1 2 0 0 rfl rfl

/-- C3: the lock is ineffective.  After construction (lock flag set, guard
installed), plain attribute assignment on the instance SUCCEEDS and changes
the instance state — `protect_getattr` installs its wrapper only as an
instance attribute, which new-style special-method dispatch never consults,
and no `__setattr__` is defined on the class.  The guard function itself
would raise the documented `TypeError` naming the operation, exhibiting the
intent the dispatch never reaches (the module's own tests,
test_immutable.py lines 54-106, expect these raises and fail). -/
theorem locked_instance_setattr_succeeds :
    ∃ st1 st2 : St,
      Immut.construct true "C" 6 ⟨[PVal.atom 1, PVal.atom 2], []⟩ [0] []
          = some (.ok (st1, ⟨2, true⟩))
        ∧ Immut.guard_getattribute "C" "__setattr__"
          = .error (.typeError "C does not support attribute assignment")
        ∧ instAttr st1.heap 2 "d" = none
        ∧ Immut.setattr_dispatch st1 ⟨2, true⟩ "d" 1 = .ok st2
        ∧ instAttr st2.heap 2 "d" = some 1 := by
  refine ⟨_, _, rfl, rfl, rfl, rfl, rfl⟩

/-- C4: persisting stores exactly the frozen `(args, kwargs)` pair and
restoring re-runs the construction pipeline, and indeed
`restore(persist(I)) == I`; but the claim's `hash(restore(persist(I))) ==
hash(I)` cannot hold because `hash()` on ANY Immutable instance raises
`AttributeError`: the hash is stored under `_MetaImmutable__hash` while
`Immutable.__hash__` reads the differently-mangled `_Immutable__hash`. -/
theorem pickle_roundtrip_eq_but_hash_raises :
    ∃ (st1 : St) (i1 : PyInst) (sid : Nat) (st2 : St) (i2 : PyInst),
      Immut.construct true "C" 8 ⟨[PVal.atom 7], []⟩ [0] [] = some (.ok (st1, i1))
        ∧ Immut.Immutable_getstate st1.heap i1.oid = some sid
        ∧ Immut.Immutable_restore true "C" 8 st1 sid = some (.ok (st2, i2))
        ∧ Immut.Immutable_eq st2.heap 10 i1.oid i2.oid = some true
        ∧ Immut.Immutable_hash st2.heap i1.oid
          = .error (.attributeError "_Immutable__hash")
        ∧ Immut.Immutable_hash st2.heap i2.oid
          = .error (.attributeError "_Immutable__hash") := by
  refine ⟨_, _, _, _, _, rfl, rfl, rfl, rfl, rfl, rfl⟩

/-- C6 counterexample: the error message for unhashable constructor
arguments does NOT name the offending argument's position or value — the
code raises `TypeError('Immutable %s initialized with unhashable
arguments')` naming only the class, so the very same error is produced
with the unhashable `slice` in position 0, in position 1, and with a
different unhashable value.  No re-scan of the arguments exists. -/
theorem unhashable_error_names_class_only :
    Immut.construct true "C" 6 ⟨[PVal.pyslice 1 2, PVal.atom 5, PVal.pyslice 2 3], []⟩
        [0, 1] []
      = some (.error (.typeError "Immutable C initialized with unhashable arguments"))
    ∧ Immut.construct true "C" 6 ⟨[PVal.pyslice 1 2, PVal.atom 5, PVal.pyslice 2 3], []⟩
        [1, 0] []
      = some (.error (.typeError "Immutable C initialized with unhashable arguments"))
    ∧ Immut.construct true "C" 6 ⟨[PVal.pyslice 1 2, PVal.atom 5, PVal.pyslice 2 3], []⟩
        [2, 1] []
      = some (.error (.typeError "Immutable C initialized with unhashable arguments")) := by
  refine ⟨rfl, rfl, rfl⟩

/-- C6 amended: when hashing the captured frozen `(args, kwargs)` fails
with `TypeError('unhashable type: ...')`, construction fails with a
`TypeError` that names only the class — `'Immutable <class> initialized
with unhashable arguments'` — and does not identify the offending
argument. -/
theorem unhashable_arg_class_message (klass : String) (fuel : Nat) (st0 : St)
    (args : List Nat) (kwargs : List (String × Nat)) (st6 : St) (ivId : Nat)
    (t : String)
    (hdf : Immut.deepfreeze fuel ⟨(Immut.callState klass st0 args kwargs).1.heap, []⟩
        (Immut.callState klass st0 args kwargs).2.2 = some (st6, ivId))
    (hh : pyHash (objSetAttr ⟨st6.heap, (Immut.callState klass st0 args kwargs).1.memo⟩
          (Immut.callState klass st0 args kwargs).2.1 "__initial_values__" ivId).heap
        fuel ivId = .error (.unhashableType t)) :
    Immut.construct true klass fuel st0 args kwargs
      = some (.error (.typeError
          ("Immutable " ++ klass ++ " initialized with unhashable arguments"))) := by
  simp only [Immut.construct, hdf, hh, if_true]

/-- Witness for the C6 amended theorem: a `slice` argument. -/
theorem unhashable_arg_class_message_witness :
    Immut.construct true "C" 6 ⟨[PVal.pyslice 1 2], []⟩ [0] []
      = some (.error (.typeError "Immutable C initialized with unhashable arguments")) :=
  unhashable_arg_class_message "C" 6 ⟨[PVal.pyslice 1 2], []⟩ [0] [] _ _ "slice" rfl rfl

/-- C7: equality of two separately constructed instances with equal
captured constructor values holds, and a hash IS computed once at
construction — but it is stored under the name-mangled attribute
`_MetaImmutable__hash`, while `Immutable.__hash__` reads
`_Immutable__hash`, which does not exist: every `hash(instance)` call
raises `AttributeError` instead of returning the construction-time hash
(the module's own test, test_immutable.py line 109, calls `hash` on an
instance and fails). -/
theorem hash_attribute_mangled_mismatch :
    ∃ (st1 : St) (i1 : PyInst) (st2 : St) (i2 : PyInst) (hid : Nat),
      Immut.construct true "D" 8 ⟨[PVal.atom 3, PVal.atom 4], []⟩ [0, 1] []
          = some (.ok (st1, i1))
        ∧ instAttr st1.heap i1.oid "_MetaImmutable__hash" = some hid
        ∧ (∃ v, st1.heap[hid]? = some (PVal.atom v))
        ∧ instAttr st1.heap i1.oid "_Immutable__hash" = none
        ∧ Immut.Immutable_hash st1.heap i1.oid
          = .error (.attributeError "_Immutable__hash")
        ∧ Immut.construct true "D" 8 st1 [0, 1] [] = some (.ok (st2, i2))
        ∧ Immut.Immutable_eq st2.heap 10 i1.oid i2.oid = some true := by
  refine ⟨_, _, _, _, 12, rfl, rfl, ⟨_, rfl⟩, rfl, rfl, rfl, rfl⟩

/-- Closed form of `allocKwPairs`: the keys are appended as string objects
and the entry list pairs each appended key id with the raw value id. -/
theorem allocKwPairs_spec (kw : List (String × Nat)) : ∀ st : St,
    Immut.allocKwPairs st kw
      = (⟨st.heap ++ kw.map (fun p => PVal.pystr p.1), st.memo⟩,
         Immut.kwPairsFrom st.heap.length kw) := by
  induction kw with
  | nil => intro st; simp [Immut.allocKwPairs, Immut.kwPairsFrom]
  | cons p rest ih =>
    intro st
    simp [Immut.allocKwPairs, alloc, Immut.kwPairsFrom, ih]

/-- Closed form of the call-state: the fresh instance, the `args` tuple,
the kwargs keys and dict, and the `(args, kwargs)` pair, in allocation
order. -/
theorem callState_spec (klass : String) (st0 : St) (args : List Nat)
    (kwargs : List (String × Nat)) :
    Immut.callState klass st0 args kwargs
      = (⟨st0.heap ++
            (PVal.obj klass (Immut.argAttrs 0 args ++ kwargs) ::
             PVal.tup args ::
             (kwargs.map (fun p => PVal.pystr p.1) ++
              [PVal.dict (Immut.kwPairsFrom (st0.heap.length + 2) kwargs),
               PVal.tup [st0.heap.length + 1, st0.heap.length + 2 + kwargs.length]])),
          st0.memo⟩,
         st0.heap.length, st0.heap.length + 3 + kwargs.length) := by
  simp [Immut.callState, alloc, Immut.runInit, setHeap, allocKwPairs_spec,
    List.set_append_right st0.heap.length _ (Nat.le_refl _)]
  omega

/-- C10: with the class-level `__DEBUG__` flag off, `construct` runs only
ordinary initialization: the lock flag is never set (and assignment
dispatch succeeds as before), the instance `__dict__` holds exactly the
initializer's attributes plus `__initial_values__` — no
`_MetaImmutable__hash` entry, so no hash is computed — and the captured
initial values are the RAW pair: a tuple holding the original argument
identities unfrozen and the still-mutable kwargs `dict`. -/
theorem debug_off_skips_freezing (klass : String) (fuel : Nat) (st0 : St)
    (args : List Nat) (kwargs : List (String × Nat)) :
    ∃ st1 : St,
      Immut.construct false klass fuel st0 args kwargs
          = some (.ok (st1, ⟨st0.heap.length, false⟩))
        ∧ st1.heap[st0.heap.length]?
          = some (.obj klass (setAttrList (Immut.argAttrs 0 args ++ kwargs)
              "__initial_values__" (st0.heap.length + 3 + kwargs.length)))
        ∧ st1.heap[st0.heap.length + 3 + kwargs.length]?
          = some (.tup [st0.heap.length + 1, st0.heap.length + 2 + kwargs.length])
        ∧ st1.heap[st0.heap.length + 1]? = some (.tup args)
        ∧ st1.heap[st0.heap.length + 2 + kwargs.length]?
          = some (.dict (Immut.kwPairsFrom (st0.heap.length + 2) kwargs))
        ∧ ∀ nm v, Immut.setattr_dispatch st1 ⟨st0.heap.length, false⟩ nm v
            = .ok (objSetAttr st1 st0.heap.length nm v) := by
  have hcs := callState_spec klass st0 args kwargs
  have hidx : ∀ (t : List PVal) (c : Nat),
      (st0.heap ++ t)[st0.heap.length + c]? = t[c]? := by
    intro t c
    rw [List.getElem?_append_right (by omega)]
    congr 1
    omega
  have hset : ∀ (a : PVal) (rest : List PVal) (y : PVal),
      (st0.heap ++ (a :: rest)).set st0.heap.length y = st0.heap ++ (y :: rest) := by
    intro a rest y
    rw [List.set_append_right _ _ (Nat.le_refl _)]
    simp
  refine ⟨⟨st0.heap ++
      (PVal.obj klass (setAttrList (Immut.argAttrs 0 args ++ kwargs)
          "__initial_values__" (st0.heap.length + 3 + kwargs.length)) ::
       PVal.tup args ::
       (kwargs.map (fun p => PVal.pystr p.1) ++
        [PVal.dict (Immut.kwPairsFrom (st0.heap.length + 2) kwargs),
         PVal.tup [st0.heap.length + 1, st0.heap.length + 2 + kwargs.length]])),
      st0.memo⟩, ?_, ?_, ?_, ?_, ?_, fun nm v => rfl⟩
  · simp only [Immut.construct, hcs, Bool.false_eq_true, if_false, objSetAttr]
    rw [show st0.heap.length = st0.heap.length + 0 from rfl, hidx]
    simp only [List.getElem?_cons_zero, setHeap, Nat.add_zero]
    rw [hset]
  · rw [show st0.heap.length = st0.heap.length + 0 from rfl, hidx]
    rfl
  · rw [show st0.heap.length + 3 + kwargs.length
        = st0.heap.length + (3 + kwargs.length) from by omega, hidx]
    rw [show 3 + kwargs.length = (1 + kwargs.length) + 1 + 1 from by omega]
    simp only [List.getElem?_cons_succ]
    rw [List.getElem?_append_right (by simp)]
    simp
  · rw [hidx]
    simp
  · rw [show st0.heap.length + 2 + kwargs.length
        = st0.heap.length + ((kwargs.length + 1) + 1) from by omega, hidx]
    simp only [List.getElem?_cons_succ]
    rw [List.getElem?_append_right (by simp)]
    simp

/-! ## Heap-evolution and frozen-value lemmas -/

theorem Ext_refl (h : List PVal) : HeapExt h h :=
  ⟨Nat.le_refl _, fun _ _ hv => Or.inl hv⟩

theorem Ext_trans {h1 h2 h3 : List PVal} (e12 : HeapExt h1 h2) (e23 : HeapExt h2 h3) :
    HeapExt h1 h3 := by
  refine ⟨Nat.le_trans e12.1 e23.1, fun i v hv => ?_⟩
  rcases e12.2 i v hv with hv2 | ⟨hobj, ty', attrs', hv2⟩
  · rcases e23.2 i v hv2 with hv3 | ⟨hobj, hv3⟩
    · exact Or.inl hv3
    · exact Or.inr ⟨hobj, hv3⟩
  · rcases e23.2 i _ hv2 with hv3 | ⟨_, hv3⟩
    · exact Or.inr ⟨hobj, ty', attrs', hv3⟩
    · exact Or.inr ⟨hobj, hv3⟩

theorem Ext_append (h : List PVal) (l : List PVal) : HeapExt h (h ++ l) := by
  refine ⟨by simp, fun i v hv => Or.inl ?_⟩
  rcases List.getElem?_eq_some.mp hv with ⟨hlt, _⟩
  rw [List.getElem?_append, if_pos hlt]
  exact hv

theorem Ext_set_obj {h : List PVal} {i : Nat} {ty attrs ty' attrs'}
    (hv : h[i]? = some (PVal.obj ty attrs)) :
    HeapExt h (h.set i (PVal.obj ty' attrs')) := by
  rcases List.getElem?_eq_some.mp hv with ⟨hlt, _⟩
  refine ⟨by simp, fun k w hw => ?_⟩
  by_cases hk : i = k
  · subst hk
    rw [hv] at hw
    refine Or.inr ⟨⟨ty, attrs, (Option.some.injEq _ _).mp hw.symm⟩, ty', attrs', ?_⟩
    rw [List.getElem?_set_self hlt]
  · rw [List.getElem?_set_ne hk]
    exact Or.inl hw

theorem isFrozenVal_mono {h : List PVal} :
    ∀ {n m i : Nat}, n ≤ m → isFrozenVal h n i = true → isFrozenVal h m i = true := by
  intro n
  induction n with
  | zero => intro m i _ hf; simp [isFrozenVal] at hf
  | succ k ih =>
    intro m i hnm hf
    rcases Nat.exists_eq_add_of_le hnm with ⟨c, rfl⟩
    rw [show k + 1 + c = (k + c) + 1 from by omega]
    rw [isFrozenVal] at hf ⊢
    revert hf
    cases hv : h[i]? with
    | none => intro hf; simp at hf
    | some v =>
      intro hf
      cases v with
      | atom n => rfl
      | pystr s' => rfl
      | pyslice a b => rfl
      | fset es => rfl
      | frozenW w => rfl
      | list es => simp at hf
      | dict es => simp at hf
      | pset es => simp at hf
      | obj ty attrs => simp at hf
      | tup es =>
        simp only [List.all_eq_true] at hf ⊢
        exact fun x hx => ih (Nat.le_add_right _ _) (hf x hx)
      | fdict es =>
        simp only [List.all_eq_true, Bool.and_eq_true] at hf ⊢
        exact fun x hx => ⟨ih (Nat.le_add_right _ _) (hf x hx).1,
          ih (Nat.le_add_right _ _) (hf x hx).2⟩

theorem isFrozenVal_ext {h h' : List PVal} (e : HeapExt h h') :
    ∀ {n i : Nat}, isFrozenVal h n i = true → isFrozenVal h' n i = true := by
  intro n
  induction n with
  | zero => intro i hf; simp [isFrozenVal] at hf
  | succ k ih =>
    intro i hf
    rw [isFrozenVal] at hf ⊢
    revert hf
    cases hv : h[i]? with
    | none => intro hf; simp at hf
    | some v =>
      intro hf
      have hv' : h'[i]? = some v := by
        rcases e.2 i v hv with h1 | ⟨⟨ty, attrs, hobj⟩, _⟩
        · exact h1
        · subst hobj; simp at hf
      rw [hv']
      cases v with
      | atom n => rfl
      | pystr s' => rfl
      | pyslice a b => rfl
      | fset es => rfl
      | frozenW w => rfl
      | list es => simp at hf
      | dict es => simp at hf
      | pset es => simp at hf
      | obj ty attrs => simp at hf
      | tup es =>
        simp only [List.all_eq_true] at hf ⊢
        exact fun x hx => ih (hf x hx)
      | fdict es =>
        simp only [List.all_eq_true, Bool.and_eq_true] at hf ⊢
        exact fun x hx => ⟨ih (hf x hx).1, ih (hf x hx).2⟩

theorem pyEqList_imp {f g : Nat → Nat → Bool}
    (hfg : ∀ x y, f x y = true → g x y = true) :
    ∀ {xs ys : List Nat}, pyEqList f xs ys = true → pyEqList g xs ys = true := by
  intro xs
  induction xs with
  | nil => intro ys hxy; cases ys <;> simp_all [pyEqList]
  | cons x xs ih =>
    intro ys hxy
    cases ys with
    | nil => simp [pyEqList] at hxy
    | cons y ys =>
      rw [pyEqList, Bool.and_eq_true] at hxy ⊢
      exact ⟨hfg _ _ hxy.1, ih hxy.2⟩

theorem pyEqPairs_imp {f g : Nat → Nat → Bool}
    (hfg : ∀ x y, f x y = true → g x y = true) :
    ∀ {ps qs : List (Nat × Nat)},
      pyEqPairs f ps qs = true → pyEqPairs g ps qs = true := by
  intro ps
  induction ps with
  | nil => intro qs hxy; cases qs <;> simp_all [pyEqPairs]
  | cons p ps ih =>
    intro qs hxy
    cases qs with
    | nil => simp [pyEqPairs] at hxy
    | cons q qs =>
      rw [pyEqPairs, Bool.and_eq_true, Bool.and_eq_true] at hxy ⊢
      exact ⟨⟨hfg _ _ hxy.1.1, hfg _ _ hxy.1.2⟩, ih hxy.2⟩

theorem pyEqVal_imp {f g : Nat → Nat → Bool}
    (hfg : ∀ x y, f x y = true → g x y = true) :
    ∀ {a b : PVal}, pyEqVal f a b = true → pyEqVal g a b = true := by
  intro a b hab
  cases a <;> cases b <;>
    first
      | exact hab
      | exact pyEqList_imp hfg hab
      | exact pyEqPairs_imp hfg hab
      | exact hfg _ _ hab

theorem pyEqVal_true_not_obj {f : Nat → Nat → Bool} {a b : PVal}
    (hab : pyEqVal f a b = true) :
    (∀ ty ats, a ≠ PVal.obj ty ats) ∧ (∀ ty ats, b ≠ PVal.obj ty ats) := by
  cases a <;> cases b <;> simp_all [pyEqVal]

theorem pyEq_mono {h : List PVal} :
    ∀ {n m i j : Nat}, n ≤ m → pyEq h n i j = true → pyEq h m i j = true := by
  intro n
  induction n with
  | zero => intro m i j _ hpq; simp [pyEq] at hpq
  | succ k ih =>
    intro m i j hnm hpq
    rcases Nat.exists_eq_add_of_le hnm with ⟨c, rfl⟩
    rw [show k + 1 + c = (k + c) + 1 from by omega]
    rw [pyEq] at hpq ⊢
    by_cases hij : i = j
    · simp [hij]
    · simp only [if_neg hij] at hpq ⊢
      revert hpq
      cases h[i]? <;> cases h[j]? <;> intro hpq
      · simp at hpq
      · simp at hpq
      · simp at hpq
      · exact pyEqVal_imp (fun x y => ih (Nat.le_add_right _ _)) hpq

theorem pyEq_ext {h h' : List PVal} (e : HeapExt h h') :
    ∀ {n i j : Nat}, pyEq h n i j = true → pyEq h' n i j = true := by
  intro n
  induction n with
  | zero => intro i j hpq; simp [pyEq] at hpq
  | succ k ih =>
    intro i j hpq
    rw [pyEq] at hpq ⊢
    by_cases hij : i = j
    · simp [hij]
    · simp only [if_neg hij] at hpq ⊢
      revert hpq
      cases ha : h[i]? with
      | none => intro hpq; simp at hpq
      | some a =>
        cases hb : h[j]? with
        | none => intro hpq; simp at hpq
        | some b =>
          intro hpq
          have hno := pyEqVal_true_not_obj hpq
          have ha' : h'[i]? = some a := by
            rcases e.2 i a ha with h1 | ⟨⟨ty, ats, hobj⟩, _⟩
            · exact h1
            · exact absurd hobj (hno.1 ty ats)
          have hb' : h'[j]? = some b := by
            rcases e.2 j b hb with h1 | ⟨⟨ty, ats, hobj⟩, _⟩
            · exact h1
            · exact absurd hobj (hno.2 ty ats)
          rw [ha', hb']
          exact pyEqVal_imp (fun x y hxy => ih hxy) hpq

theorem frozen_bound {h : List PVal} :
    ∀ {es : List Nat}, (∀ j ∈ es, ∃ n, isFrozenVal h n j = true) →
      ∃ N, ∀ j ∈ es, isFrozenVal h N j = true := by
  intro es
  induction es with
  | nil => exact fun _ => ⟨1, by simp⟩
  | cons x xs ih =>
    intro hall
    rcases hall x (by simp) with ⟨n, hn⟩
    rcases ih (fun j hj => hall j (by simp [hj])) with ⟨N, hN⟩
    refine ⟨Nat.max n N, fun j hj => ?_⟩
    rcases List.mem_cons.mp hj with rfl | hj
    · exact isFrozenVal_mono (Nat.le_max_left _ _) hn
    · exact isFrozenVal_mono (Nat.le_max_right _ _) (hN j hj)

theorem frozen_bound_pairs {h : List PVal} :
    ∀ {es : List (Nat × Nat)},
      (∀ p ∈ es, (∃ n, isFrozenVal h n p.1 = true) ∧ ∃ n, isFrozenVal h n p.2 = true) →
      ∃ N, ∀ p ∈ es, isFrozenVal h N p.1 = true ∧ isFrozenVal h N p.2 = true := by
  intro es
  induction es with
  | nil => exact fun _ => ⟨1, by simp⟩
  | cons x xs ih =>
    intro hall
    rcases hall x (by simp) with ⟨⟨n1, hn1⟩, n2, hn2⟩
    rcases ih (fun p hp => hall p (by simp [hp])) with ⟨N, hN⟩
    refine ⟨Nat.max (Nat.max n1 n2) N, fun p hp => ?_⟩
    rcases List.mem_cons.mp hp with rfl | hp
    · exact ⟨isFrozenVal_mono (Nat.le_trans (Nat.le_max_left _ _) (Nat.le_max_left _ _)) hn1,
        isFrozenVal_mono (Nat.le_trans (Nat.le_max_right _ _) (Nat.le_max_left _ _)) hn2⟩
    · exact ⟨isFrozenVal_mono (Nat.le_max_right _ _) (hN p hp).1,
        isFrozenVal_mono (Nat.le_max_right _ _) (hN p hp).2⟩

theorem mem_of_lookup_eq_some {l : List (Nat × Nat)} {i j : Nat}
    (h : l.lookup i = some j) : (i, j) ∈ l := by
  induction l with
  | nil => simp [List.lookup] at h
  | cons p rest ih =>
    obtain ⟨k, b⟩ := p
    rw [List.lookup] at h
    by_cases hik : i = k
    · subst hik
      have hbeq : (i == i) = true := by simp
      rw [hbeq] at h
      obtain rfl : b = j := by simpa using h
      exact List.mem_cons_self _ _
    · have hbeq : (i == k) = false := by simp [hik]
      rw [hbeq] at h
      exact List.mem_cons_of_mem _ (ih h)

/-- Invariant propagation through the element loop of a container branch:
if the recursive freezer preserves the heap-evolution and frozen-memo
invariants and produces frozen results, so does the whole loop. -/
theorem freezeListB {f : St → Nat → Option (St × Nat)}
    (hf : ∀ st i st' j, f st i = some (st', j) → MemoFrozen st →
      HeapExt st.heap st'.heap ∧ MemoFrozen st' ∧
        ∃ n, isFrozenVal st'.heap n j = true) :
    ∀ (es : List Nat) (st st' : St) (es' : List Nat),
      Freeze.freezeList f st es = some (st', es') → MemoFrozen st →
      HeapExt st.heap st'.heap ∧ MemoFrozen st' ∧
        ∀ j ∈ es', ∃ n, isFrozenVal st'.heap n j = true := by
  intro es
  induction es with
  | nil =>
    intro st st' es' hfl hmf
    obtain ⟨rfl, rfl⟩ : st = st' ∧ ([] : List Nat) = es' := by
      simpa [Freeze.freezeList] using hfl
    exact ⟨Ext_refl _, hmf, by simp⟩
  | cons x xs ih =>
    intro st st' es' hfl hmf
    rw [Freeze.freezeList] at hfl
    revert hfl
    cases hfx : f st x with
    | none => intro hfl; simp at hfl
    | some p =>
      obtain ⟨st1, y⟩ := p
      cases hrest : Freeze.freezeList f st1 xs with
      | none => intro hfl; simp [hrest] at hfl
      | some q =>
        obtain ⟨st2, ys⟩ := q
        intro hfl
        obtain ⟨rfl, rfl⟩ : st2 = st' ∧ y :: ys = es' := by
          simpa [hrest] using hfl
        obtain ⟨e1, mf1, n1, hy⟩ := hf st x st1 y hfx hmf
        obtain ⟨e2, mf2, hys⟩ := ih st1 st2 ys hrest mf1
        refine ⟨Ext_trans e1 e2, mf2, fun j hj => ?_⟩
        rcases List.mem_cons.mp hj with rfl | hj
        · exact ⟨n1, isFrozenVal_ext e2 hy⟩
        · exact hys j hj

/-- The same for the `(f(k), f(v))` loop of the mapping branch. -/
theorem freezePairsB {f : St → Nat → Option (St × Nat)}
    (hf : ∀ st i st' j, f st i = some (st', j) → MemoFrozen st →
      HeapExt st.heap st'.heap ∧ MemoFrozen st' ∧
        ∃ n, isFrozenVal st'.heap n j = true) :
    ∀ (es : List (Nat × Nat)) (st st' : St) (es' : List (Nat × Nat)),
      Freeze.freezePairs f st es = some (st', es') → MemoFrozen st →
      HeapExt st.heap st'.heap ∧ MemoFrozen st' ∧
        ∀ p ∈ es', (∃ n, isFrozenVal st'.heap n p.1 = true) ∧
          ∃ n, isFrozenVal st'.heap n p.2 = true := by
  intro es
  induction es with
  | nil =>
    intro st st' es' hfl hmf
    obtain ⟨rfl, rfl⟩ : st = st' ∧ ([] : List (Nat × Nat)) = es' := by
      simpa [Freeze.freezePairs] using hfl
    exact ⟨Ext_refl _, hmf, by simp⟩
  | cons p ps ih =>
    intro st st' es' hfl hmf
    rw [Freeze.freezePairs] at hfl
    revert hfl
    cases hfk : f st p.1 with
    | none => intro hfl; simp at hfl
    | some q1 =>
      obtain ⟨st1, k'⟩ := q1
      cases hfv : f st1 p.2 with
      | none => intro hfl; simp [hfv] at hfl
      | some q2 =>
        obtain ⟨st2, v'⟩ := q2
        cases hrest : Freeze.freezePairs f st2 ps with
        | none => intro hfl; simp [hfv, hrest] at hfl
        | some q3 =>
          obtain ⟨st3, qs⟩ := q3
          intro hfl
          obtain ⟨rfl, rfl⟩ : st3 = st' ∧ (k', v') :: qs = es' := by
            simpa [hfv, hrest] using hfl
          obtain ⟨e1, mf1, n1, hk⟩ := hf st p.1 st1 k' hfk hmf
          obtain ⟨e2, mf2, n2, hv2⟩ := hf st1 p.2 st2 v' hfv mf1
          obtain ⟨e3, mf3, hqs⟩ := ih st2 st3 qs hrest mf2
          refine ⟨Ext_trans e1 (Ext_trans e2 e3), mf3, fun q hq => ?_⟩
          rcases List.mem_cons.mp hq with rfl | hq
          · exact ⟨⟨n1, isFrozenVal_ext e3 (isFrozenVal_ext e2 hk)⟩,
              ⟨n2, isFrozenVal_ext e3 hv2⟩⟩
          · exact hqs q hq

/-- The attribute loop of freeze.py's `deepfreeze`: names are preserved,
attributes in the exclusion registry are untouched, the rest are replaced
by frozen results. -/
theorem freezeAttrsB {f : St → Nat → Option (St × Nat)} {mutables : List String}
    (hf : ∀ st i st' j, f st i = some (st', j) → MemoFrozen st →
      HeapExt st.heap st'.heap ∧ MemoFrozen st' ∧
        ∃ n, isFrozenVal st'.heap n j = true) :
    ∀ (ats : List (String × Nat)) (st st' : St) (ats' : List (String × Nat)),
      Freeze.freezeAttrs f mutables st ats = some (st', ats') → MemoFrozen st →
      HeapExt st.heap st'.heap ∧ MemoFrozen st' ∧
        List.Forall₂ (fun kv kv' => kv'.1 = kv.1
          ∧ (kv.1 ∈ mutables → kv' = kv)
          ∧ (kv.1 ∉ mutables → ∃ n, isFrozenVal st'.heap n kv'.2 = true)) ats ats' := by
  intro ats
  induction ats with
  | nil =>
    intro st st' ats' hfa hmf
    obtain ⟨rfl, rfl⟩ : st = st' ∧ ([] : List (String × Nat)) = ats' := by
      simpa [Freeze.freezeAttrs] using hfa
    exact ⟨Ext_refl _, hmf, List.Forall₂.nil⟩
  | cons kv rest ih =>
    intro st st' ats' hfa hmf
    obtain ⟨k, v⟩ := kv
    rw [Freeze.freezeAttrs] at hfa
    by_cases hk : k ∈ mutables
    · rw [if_pos hk] at hfa
      revert hfa
      cases hrest : Freeze.freezeAttrs f mutables st rest with
      | none => intro hfa; simp at hfa
      | some q =>
        obtain ⟨st1, r⟩ := q
        intro hfa
        obtain ⟨rfl, rfl⟩ : st1 = st' ∧ (k, v) :: r = ats' := by
          simpa using hfa
        obtain ⟨e1, mf1, hrel⟩ := ih st st1 r hrest hmf
        exact ⟨e1, mf1, List.Forall₂.cons
          ⟨rfl, fun _ => rfl, fun hnk => absurd hk hnk⟩ hrel⟩
    · rw [if_neg hk] at hfa
      revert hfa
      cases hfv : f st v with
      | none => intro hfa; simp at hfa
      | some q1 =>
        obtain ⟨st1, v'⟩ := q1
        cases hrest : Freeze.freezeAttrs f mutables st1 rest with
        | none => intro hfa; simp [hrest] at hfa
        | some q2 =>
          obtain ⟨st2, r⟩ := q2
          intro hfa
          obtain ⟨rfl, rfl⟩ : st2 = st' ∧ (k, v') :: r = ats' := by
            simpa [hrest] using hfa
          obtain ⟨e1, mf1, n1, hv1⟩ := hf st v st1 v' hfv hmf
          obtain ⟨e2, mf2, hrel⟩ := ih st1 st2 r hrest mf1
          exact ⟨Ext_trans e1 e2, mf2, List.Forall₂.cons
            ⟨rfl, fun hkm => absurd hkm hk,
             fun _ => ⟨n1, isFrozenVal_ext e2 hv1⟩⟩ hrel⟩

theorem MemoFrozen_ext {h h' : List PVal} {m : List (Nat × Nat)}
    (e : HeapExt h h') (hmf : MemoFrozen ⟨h, m⟩) : MemoFrozen ⟨h', m⟩ :=
  fun p hp => (hmf p hp).imp fun _ hn => isFrozenVal_ext e hn

theorem _freeze_after_alloc_list (st1 : St) (es' : List Nat) :
    Freeze._freeze (alloc st1 (PVal.list es')).1 (alloc st1 (PVal.list es')).2
      = some (⟨st1.heap ++ [PVal.list es'] ++ [PVal.tup es'], st1.memo⟩,
              st1.heap.length + 1) := by
  simp [Freeze._freeze, alloc, List.getElem?_concat_length]

theorem _freeze_after_alloc_pset (st1 : St) (es' : List Nat) :
    Freeze._freeze (alloc st1 (PVal.pset es')).1 (alloc st1 (PVal.pset es')).2
      = some (⟨st1.heap ++ [PVal.pset es'] ++ [PVal.fset es'], st1.memo⟩,
              st1.heap.length + 1) := by
  simp [Freeze._freeze, alloc, List.getElem?_concat_length]

theorem _freeze_after_alloc_dict (st1 : St) (es' : List (Nat × Nat)) :
    Freeze._freeze (alloc st1 (PVal.dict es')).1 (alloc st1 (PVal.dict es')).2
      = some (⟨st1.heap ++ [PVal.dict es'] ++ [PVal.fdict es'], st1.memo⟩,
              st1.heap.length + 1) := by
  simp [Freeze._freeze, alloc, List.getElem?_concat_length]

theorem _freeze_obj (st2 : St) (i : Nat) (ty : String) (ats : List (String × Nat))
    (hv : st2.heap[i]? = some (PVal.obj ty ats)) :
    Freeze._freeze st2 i
      = some (⟨st2.heap ++ [PVal.frozenW i], st2.memo⟩, st2.heap.length) := by
  simp [Freeze._freeze, hv, alloc]


/-- Soundness of one freezing pass: on success the heap has only grown
(except in-place object `__dict__` updates), every memo entry maps to a
frozen value, and the returned reference is frozen. -/
theorem freezeB : ∀ (fuel : Nat) (st : St) (i : Nat) (st' : St) (j : Nat),
    Freeze.deepfreeze fuel st i = some (st', j) → MemoFrozen st →
    HeapExt st.heap st'.heap ∧ MemoFrozen st' ∧
      ∃ n, isFrozenVal st'.heap n j = true := by
  intro fuel
  induction fuel with
  | zero => intro st i st' j hdf _; simp [Freeze.deepfreeze] at hdf
  | succ k ih =>
    intro st i st' j hdf hmf
    rw [Freeze.deepfreeze] at hdf
    cases hm : st.memo.lookup i with
    | some r =>
      rw [hm] at hdf
      obtain ⟨rfl, rfl⟩ : st = st' ∧ r = j := by simpa using hdf
      exact ⟨Ext_refl _, hmf, hmf (i, r) (mem_of_lookup_eq_some hm)⟩
    | none =>
      rw [hm] at hdf
      cases hv : st.heap[i]? with
      | none => rw [hv] at hdf; simp at hdf
      | some v =>
        rw [hv] at hdf
        dsimp only [Bind.bind, Option.bind] at hdf
        cases v with
        | atom n =>
          obtain ⟨rfl, rfl⟩ : st = st' ∧ i = j := by simpa using hdf
          exact ⟨Ext_refl _, hmf, 1, by rw [isFrozenVal, hv]⟩
        | pystr s' =>
          obtain ⟨rfl, rfl⟩ : st = st' ∧ i = j := by simpa using hdf
          exact ⟨Ext_refl _, hmf, 1, by rw [isFrozenVal, hv]⟩
        | pyslice a b =>
          obtain ⟨rfl, rfl⟩ : st = st' ∧ i = j := by simpa using hdf
          exact ⟨Ext_refl _, hmf, 1, by rw [isFrozenVal, hv]⟩
        | fset es =>
          obtain ⟨rfl, rfl⟩ : st = st' ∧ i = j := by simpa using hdf
          exact ⟨Ext_refl _, hmf, 1, by rw [isFrozenVal, hv]⟩
        | frozenW w =>
          obtain ⟨rfl, rfl⟩ : st = st' ∧ i = j := by simpa using hdf
          exact ⟨Ext_refl _, hmf, 1, by rw [isFrozenVal, hv]⟩
        | list es =>
          simp only [] at hdf
          cases hfl : Freeze.freezeList (Freeze.deepfreeze k) st es with
          | none => rw [hfl] at hdf; simp at hdf
          | some p =>
            obtain ⟨st1, es'⟩ := p
            rw [hfl] at hdf
            dsimp only [Bind.bind, Option.bind] at hdf
            rw [_freeze_after_alloc_list] at hdf
            obtain ⟨rfl, rfl⟩ :
                (⟨st1.heap ++ [PVal.list es'] ++ [PVal.tup es'], st1.memo⟩ : St) = st'
                  ∧ st1.heap.length + 1 = j := by simpa using hdf
            obtain ⟨e1, mf1, hfr⟩ := freezeListB (fun s a s2 b hb => ih s a s2 b hb)
              es st st1 es' hfl hmf
            have e2 : HeapExt st1.heap
                (st1.heap ++ [PVal.list es'] ++ [PVal.tup es']) := by
              rw [List.append_assoc]; exact Ext_append _ _
            obtain ⟨N, hN⟩ := frozen_bound hfr
            refine ⟨Ext_trans e1 e2, MemoFrozen_ext e2 mf1, N + 1, ?_⟩
            rw [isFrozenVal]
            have hl : (st1.heap ++ [PVal.list es'] ++ [PVal.tup es'])[st1.heap.length + 1]?
                = some (PVal.tup es') := by
              have := List.getElem?_concat_length (st1.heap ++ [PVal.list es'])
                (PVal.tup es')
              simpa using this
            rw [hl]
            simp only [List.all_eq_true]
            exact fun x hx => isFrozenVal_ext e2 (hN x hx)
        | tup es =>
          simp only [] at hdf
          cases hfl : Freeze.freezeList (Freeze.deepfreeze k) st es with
          | none => rw [hfl] at hdf; simp at hdf
          | some p =>
            obtain ⟨st1, es'⟩ := p
            rw [hfl] at hdf
            dsimp only [Bind.bind, Option.bind] at hdf
            rw [_freeze_after_alloc_list] at hdf
            obtain ⟨rfl, rfl⟩ :
                (⟨st1.heap ++ [PVal.list es'] ++ [PVal.tup es'], st1.memo⟩ : St) = st'
                  ∧ st1.heap.length + 1 = j := by simpa using hdf
            obtain ⟨e1, mf1, hfr⟩ := freezeListB (fun s a s2 b hb => ih s a s2 b hb)
              es st st1 es' hfl hmf
            have e2 : HeapExt st1.heap
                (st1.heap ++ [PVal.list es'] ++ [PVal.tup es']) := by
              rw [List.append_assoc]; exact Ext_append _ _
            obtain ⟨N, hN⟩ := frozen_bound hfr
            refine ⟨Ext_trans e1 e2, MemoFrozen_ext e2 mf1, N + 1, ?_⟩
            rw [isFrozenVal]
            have hl : (st1.heap ++ [PVal.list es'] ++ [PVal.tup es'])[st1.heap.length + 1]?
                = some (PVal.tup es') := by
              have := List.getElem?_concat_length (st1.heap ++ [PVal.list es'])
                (PVal.tup es')
              simpa using this
            rw [hl]
            simp only [List.all_eq_true]
            exact fun x hx => isFrozenVal_ext e2 (hN x hx)
        | pset es =>
          simp only [] at hdf
          cases hfl : Freeze.freezeList (Freeze.deepfreeze k) st es with
          | none => rw [hfl] at hdf; simp at hdf
          | some p =>
            obtain ⟨st1, es'⟩ := p
            rw [hfl] at hdf
            dsimp only [Bind.bind, Option.bind] at hdf
            rw [_freeze_after_alloc_pset] at hdf
            obtain ⟨rfl, rfl⟩ :
                (⟨st1.heap ++ [PVal.pset es'] ++ [PVal.fset es'], st1.memo⟩ : St) = st'
                  ∧ st1.heap.length + 1 = j := by simpa using hdf
            obtain ⟨e1, mf1, _⟩ := freezeListB (fun s a s2 b hb => ih s a s2 b hb)
              es st st1 es' hfl hmf
            have e2 : HeapExt st1.heap
                (st1.heap ++ [PVal.pset es'] ++ [PVal.fset es']) := by
              rw [List.append_assoc]; exact Ext_append _ _
            refine ⟨Ext_trans e1 e2, MemoFrozen_ext e2 mf1, 1, ?_⟩
            rw [isFrozenVal]
            have hl : (st1.heap ++ [PVal.pset es'] ++ [PVal.fset es'])[st1.heap.length + 1]?
                = some (PVal.fset es') := by
              have := List.getElem?_concat_length (st1.heap ++ [PVal.pset es'])
                (PVal.fset es')
              simpa using this
            rw [hl]
        | dict es =>
          simp only [] at hdf
          cases hfp : Freeze.freezePairs (Freeze.deepfreeze k) st es with
          | none => rw [hfp] at hdf; simp at hdf
          | some p =>
            obtain ⟨st1, es'⟩ := p
            rw [hfp] at hdf
            dsimp only [Bind.bind, Option.bind] at hdf
            rw [_freeze_after_alloc_dict] at hdf
            obtain ⟨rfl, rfl⟩ :
                (⟨st1.heap ++ [PVal.dict es'] ++ [PVal.fdict es'], st1.memo⟩ : St) = st'
                  ∧ st1.heap.length + 1 = j := by simpa using hdf
            obtain ⟨e1, mf1, hfr⟩ := freezePairsB (fun s a s2 b hb => ih s a s2 b hb)
              es st st1 es' hfp hmf
            have e2 : HeapExt st1.heap
                (st1.heap ++ [PVal.dict es'] ++ [PVal.fdict es']) := by
              rw [List.append_assoc]; exact Ext_append _ _
            obtain ⟨N, hN⟩ := frozen_bound_pairs hfr
            refine ⟨Ext_trans e1 e2, MemoFrozen_ext e2 mf1, N + 1, ?_⟩
            rw [isFrozenVal]
            have hl : (st1.heap ++ [PVal.dict es'] ++ [PVal.fdict es'])[st1.heap.length + 1]?
                = some (PVal.fdict es') := by
              have := List.getElem?_concat_length (st1.heap ++ [PVal.dict es'])
                (PVal.fdict es')
              simpa using this
            rw [hl]
            simp only [List.all_eq_true, Bool.and_eq_true]
            exact fun x hx => ⟨isFrozenVal_ext e2 (hN x hx).1,
              isFrozenVal_ext e2 (hN x hx).2⟩
        | fdict es =>
          simp only [] at hdf
          cases hfp : Freeze.freezePairs (Freeze.deepfreeze k) st es with
          | none => rw [hfp] at hdf; simp at hdf
          | some p =>
            obtain ⟨st1, es'⟩ := p
            rw [hfp] at hdf
            dsimp only [Bind.bind, Option.bind] at hdf
            rw [_freeze_after_alloc_dict] at hdf
            obtain ⟨rfl, rfl⟩ :
                (⟨st1.heap ++ [PVal.dict es'] ++ [PVal.fdict es'], st1.memo⟩ : St) = st'
                  ∧ st1.heap.length + 1 = j := by simpa using hdf
            obtain ⟨e1, mf1, hfr⟩ := freezePairsB (fun s a s2 b hb => ih s a s2 b hb)
              es st st1 es' hfp hmf
            have e2 : HeapExt st1.heap
                (st1.heap ++ [PVal.dict es'] ++ [PVal.fdict es']) := by
              rw [List.append_assoc]; exact Ext_append _ _
            obtain ⟨N, hN⟩ := frozen_bound_pairs hfr
            refine ⟨Ext_trans e1 e2, MemoFrozen_ext e2 mf1, N + 1, ?_⟩
            rw [isFrozenVal]
            have hl : (st1.heap ++ [PVal.dict es'] ++ [PVal.fdict es'])[st1.heap.length + 1]?
                = some (PVal.fdict es') := by
              have := List.getElem?_concat_length (st1.heap ++ [PVal.dict es'])
                (PVal.fdict es')
              simpa using this
            rw [hl]
            simp only [List.all_eq_true, Bool.and_eq_true]
            exact fun x hx => ⟨isFrozenVal_ext e2 (hN x hx).1,
              isFrozenVal_ext e2 (hN x hx).2⟩
        | obj ty ats =>
          simp only [] at hdf
          cases hfa : Freeze.freezeAttrs (Freeze.deepfreeze k)
              (Freeze.get_mutable_attributes ty) st ats with
          | none => rw [hfa] at hdf; simp at hdf
          | some p =>
            obtain ⟨st1, ats'⟩ := p
            rw [hfa] at hdf
            dsimp only [Bind.bind, Option.bind] at hdf
            obtain ⟨e1, mf1, _⟩ := freezeAttrsB (fun s a s2 b hb => ih s a s2 b hb)
              ats st st1 ats' hfa hmf
            have hlt : i < st1.heap.length :=
              Nat.lt_of_lt_of_le (List.getElem?_eq_some.mp hv).1 e1.1
            have hobj1 : (setHeap st1 i (PVal.obj ty ats')).heap[i]?
                = some (PVal.obj ty ats') := by
              simp [setHeap, List.getElem?_set_self hlt]
            rw [_freeze_obj _ i ty ats' hobj1] at hdf
            dsimp only [setHeap, memoInsert] at hdf
            obtain ⟨rfl, rfl⟩ :
                (⟨(st1.heap.set i (PVal.obj ty ats')) ++ [PVal.frozenW i],
                   (i, (st1.heap.set i (PVal.obj ty ats')).length) :: st1.memo⟩ : St) = st'
                  ∧ (st1.heap.set i (PVal.obj ty ats')).length = j := by
              simpa using hdf
            have e2 : HeapExt st1.heap (st1.heap.set i (PVal.obj ty ats')) := by
              rcases e1.2 i _ hv with h1 | ⟨_, ty2, ats2, h2⟩
              · exact Ext_set_obj h1
              · exact Ext_set_obj h2
            have e3 : HeapExt (st1.heap.set i (PVal.obj ty ats'))
                ((st1.heap.set i (PVal.obj ty ats')) ++ [PVal.frozenW i]) :=
              Ext_append _ _
            refine ⟨Ext_trans e1 (Ext_trans e2 e3), ?_, 1, ?_⟩
            · intro q hq
              rcases List.mem_cons.mp hq with rfl | hq
              · exact ⟨1, by rw [isFrozenVal, List.getElem?_concat_length]⟩
              · exact (MemoFrozen_ext (Ext_trans e2 e3) mf1) q hq
            · rw [isFrozenVal, List.getElem?_concat_length]

/-- Re-freezing a list of already-frozen references succeeds with an empty
memo, only grows the heap, and yields pointwise `==`-equal results. -/
theorem refreezeList (k : Nat)
    (ihc : ∀ (h : List PVal) (j : Nat), isFrozenVal h k j = true →
      ∀ fuel, k ≤ fuel →
      ∃ (h' : List PVal) (j' m : Nat),
        Freeze.deepfreeze fuel ⟨h, []⟩ j = some (⟨h', []⟩, j')
          ∧ HeapExt h h' ∧ pyEq h' m j' j = true) :
    ∀ (es : List Nat) (h : List PVal), (∀ e ∈ es, isFrozenVal h k e = true) →
    ∀ fuel, k ≤ fuel →
    ∃ (h' : List PVal) (es' : List Nat) (m : Nat),
      Freeze.freezeList (Freeze.deepfreeze fuel) ⟨h, []⟩ es = some (⟨h', []⟩, es')
        ∧ HeapExt h h' ∧ pyEqList (pyEq h' m) es' es = true := by
  intro es
  induction es with
  | nil =>
    intro h _ fuel _
    exact ⟨h, [], 1, by rw [Freeze.freezeList], Ext_refl _, by rw [pyEqList]⟩
  | cons x xs ih =>
    intro h hall fuel hkf
    obtain ⟨h1, y, m1, hdf1, e1, hpq1⟩ := ihc h x (hall x (by simp)) fuel hkf
    obtain ⟨h2, ys, m2, hdf2, e2, hpq2⟩ := ih h1
      (fun e he => isFrozenVal_ext e1 (hall e (by simp [he]))) fuel hkf
    refine ⟨h2, y :: ys, Nat.max m1 m2, ?_, Ext_trans e1 e2, ?_⟩
    · rw [Freeze.freezeList, hdf1]
      dsimp only [Bind.bind, Option.bind]
      rw [hdf2]
    · rw [pyEqList, Bool.and_eq_true]
      exact ⟨pyEq_mono (Nat.le_max_left _ _) (pyEq_ext e2 hpq1),
        pyEqList_imp (fun a b => pyEq_mono (Nat.le_max_right _ _)) hpq2⟩

/-- The analogue for the `(f(k), f(v))` loop of the mapping branch. -/
theorem refreezePairs (k : Nat)
    (ihc : ∀ (h : List PVal) (j : Nat), isFrozenVal h k j = true →
      ∀ fuel, k ≤ fuel →
      ∃ (h' : List PVal) (j' m : Nat),
        Freeze.deepfreeze fuel ⟨h, []⟩ j = some (⟨h', []⟩, j')
          ∧ HeapExt h h' ∧ pyEq h' m j' j = true) :
    ∀ (es : List (Nat × Nat)) (h : List PVal),
      (∀ p ∈ es, isFrozenVal h k p.1 = true ∧ isFrozenVal h k p.2 = true) →
    ∀ fuel, k ≤ fuel →
    ∃ (h' : List PVal) (es' : List (Nat × Nat)) (m : Nat),
      Freeze.freezePairs (Freeze.deepfreeze fuel) ⟨h, []⟩ es = some (⟨h', []⟩, es')
        ∧ HeapExt h h' ∧ pyEqPairs (pyEq h' m) es' es = true := by
  intro es
  induction es with
  | nil =>
    intro h _ fuel _
    exact ⟨h, [], 1, by rw [Freeze.freezePairs], Ext_refl _, by rw [pyEqPairs]⟩
  | cons p ps ih =>
    intro h hall fuel hkf
    obtain ⟨h1, y1, m1, hdf1, e1, hpq1⟩ := ihc h p.1 (hall p (by simp)).1 fuel hkf
    have hp2 : isFrozenVal h1 k p.2 = true := isFrozenVal_ext e1 (hall p (by simp)).2
    obtain ⟨h2, y2, m2, hdf2, e2, hpq2⟩ := ihc h1 p.2 hp2 fuel hkf
    obtain ⟨h3, qs, m3, hdf3, e3, hpq3⟩ := ih h2
      (fun q hq => ⟨isFrozenVal_ext e2 (isFrozenVal_ext e1 (hall q (by simp [hq])).1),
        isFrozenVal_ext e2 (isFrozenVal_ext e1 (hall q (by simp [hq])).2)⟩) fuel hkf
    refine ⟨h3, (y1, y2) :: qs, Nat.max (Nat.max m1 m2) m3, ?_,
      Ext_trans e1 (Ext_trans e2 e3), ?_⟩
    · rw [Freeze.freezePairs, hdf1]
      dsimp only [Bind.bind, Option.bind]
      rw [hdf2]
      dsimp only [Bind.bind, Option.bind]
      rw [hdf3]
    · rw [pyEqPairs, Bool.and_eq_true, Bool.and_eq_true]
      refine ⟨⟨?_, ?_⟩, ?_⟩
      · exact pyEq_mono (Nat.le_trans (Nat.le_max_left _ _) (Nat.le_max_left _ _))
          (pyEq_ext e3 (pyEq_ext e2 hpq1))
      · exact pyEq_mono (Nat.le_trans (Nat.le_max_right _ _) (Nat.le_max_left _ _))
          (pyEq_ext e3 hpq2)
      · exact pyEqPairs_imp (fun a b => pyEq_mono (Nat.le_max_right _ _)) hpq3

/-- Re-freezing an already-frozen value: `deepfreeze` (fresh memo) succeeds,
never writes the memo, only appends to the heap, and returns an `==`-equal
value — frozen atomic types (including the `_Frozen` wrapper, preventing
double wrapping) come back identical, tuples and frozendicts are rebuilt
pointwise equal. -/
theorem refreeze : ∀ (n : Nat) (h : List PVal) (j : Nat),
    isFrozenVal h n j = true → ∀ fuel, n ≤ fuel →
    ∃ (h' : List PVal) (j' m : Nat),
      Freeze.deepfreeze fuel ⟨h, []⟩ j = some (⟨h', []⟩, j')
        ∧ HeapExt h h' ∧ pyEq h' m j' j = true := by
  intro n
  induction n with
  | zero => intro h j hf; simp [isFrozenVal] at hf
  | succ k ih =>
    intro h j hf fuel hkf
    obtain ⟨f, rfl⟩ : ∃ f, fuel = f + 1 := by
      rcases fuel with _ | f
      · omega
      · exact ⟨f, rfl⟩
    have hkf' : k ≤ f := by omega
    rw [isFrozenVal] at hf
    revert hf
    cases hv : h[j]? with
    | none => intro hf; simp at hf
    | some v =>
      intro hf
      cases v with
      | atom n =>
        exact ⟨h, j, 1, by rw [Freeze.deepfreeze, hv]; rfl, Ext_refl _,
          by simp [pyEq]⟩
      | pystr s' =>
        exact ⟨h, j, 1, by rw [Freeze.deepfreeze, hv]; rfl, Ext_refl _,
          by simp [pyEq]⟩
      | pyslice a b =>
        exact ⟨h, j, 1, by rw [Freeze.deepfreeze, hv]; rfl, Ext_refl _,
          by simp [pyEq]⟩
      | fset es =>
        exact ⟨h, j, 1, by rw [Freeze.deepfreeze, hv]; rfl, Ext_refl _,
          by simp [pyEq]⟩
      | frozenW w =>
        exact ⟨h, j, 1, by rw [Freeze.deepfreeze, hv]; rfl, Ext_refl _,
          by simp [pyEq]⟩
      | list es => simp at hf
      | dict es => simp at hf
      | pset es => simp at hf
      | obj ty ats => simp at hf
      | tup es =>
        simp only [List.all_eq_true] at hf
        obtain ⟨h1, es', m, hL, e1, hpq⟩ := refreezeList k ih es h hf f hkf'
        have hj' : j < h1.length :=
          Nat.lt_of_lt_of_le (List.getElem?_eq_some.mp hv).1 e1.1
        refine ⟨h1 ++ [PVal.list es'] ++ [PVal.tup es'], h1.length + 1,
          m + 1, ?_, ?_, ?_⟩
        · rw [Freeze.deepfreeze, hv]
          show (Freeze.freezeList (Freeze.deepfreeze f) ⟨h, []⟩ _).bind _ = _
          rw [hL]
          dsimp only [Bind.bind, Option.bind]
          exact _freeze_after_alloc_list ⟨h1, []⟩ es'

        · have e2 : HeapExt h1 (h1 ++ [PVal.list es'] ++ [PVal.tup es']) := by
            rw [List.append_assoc]; exact Ext_append _ _
          exact Ext_trans e1 e2
        · have e2 : HeapExt h1 (h1 ++ [PVal.list es'] ++ [PVal.tup es']) := by
            rw [List.append_assoc]; exact Ext_append _ _
          rw [pyEq]
          by_cases hjj : h1.length + 1 = j
          · simp [hjj]
          · simp only [if_neg hjj]
            have hnew : (h1 ++ [PVal.list es'] ++ [PVal.tup es'])[h1.length + 1]?
                = some (PVal.tup es') := by
              have := List.getElem?_concat_length (h1 ++ [PVal.list es']) (PVal.tup es')
              simpa using this
            have hold : (h1 ++ [PVal.list es'] ++ [PVal.tup es'])[j]?
                = some (PVal.tup es) := by
              rcases e2.2 j _ (by
                rcases e1.2 j _ hv with h1' | ⟨⟨ty2, ats2, hobj⟩, _⟩
                · exact h1'
                · cases hobj) with h2' | ⟨⟨ty2, ats2, hobj⟩, _⟩
              · exact h2'
              · cases hobj
            rw [hnew, hold]
            exact pyEqList_imp (fun a b => pyEq_ext e2) hpq
      | fdict es =>
        simp only [List.all_eq_true, Bool.and_eq_true] at hf
        obtain ⟨h1, es', m, hL, e1, hpq⟩ := refreezePairs k ih es h hf f hkf'
        refine ⟨h1 ++ [PVal.dict es'] ++ [PVal.fdict es'], h1.length + 1,
          m + 1, ?_, ?_, ?_⟩
        · rw [Freeze.deepfreeze, hv]
          show (Freeze.freezePairs (Freeze.deepfreeze f) ⟨h, []⟩ _).bind _ = _
          rw [hL]
          dsimp only [Bind.bind, Option.bind]
          exact _freeze_after_alloc_dict ⟨h1, []⟩ es'

        · have e2 : HeapExt h1 (h1 ++ [PVal.dict es'] ++ [PVal.fdict es']) := by
            rw [List.append_assoc]; exact Ext_append _ _
          exact Ext_trans e1 e2
        · have e2 : HeapExt h1 (h1 ++ [PVal.dict es'] ++ [PVal.fdict es']) := by
            rw [List.append_assoc]; exact Ext_append _ _
          rw [pyEq]
          by_cases hjj : h1.length + 1 = j
          · simp [hjj]
          · simp only [if_neg hjj]
            have hnew : (h1 ++ [PVal.dict es'] ++ [PVal.fdict es'])[h1.length + 1]?
                = some (PVal.fdict es') := by
              have := List.getElem?_concat_length (h1 ++ [PVal.dict es']) (PVal.fdict es')
              simpa using this
            have hold : (h1 ++ [PVal.dict es'] ++ [PVal.fdict es'])[j]?
                = some (PVal.fdict es) := by
              rcases e2.2 j _ (by
                rcases e1.2 j _ hv with h1' | ⟨⟨ty2, ats2, hobj⟩, _⟩
                · exact h1'
                · cases hobj) with h2' | ⟨⟨ty2, ats2, hobj⟩, _⟩
              · exact h2'
              · cases hobj
            rw [hnew, hold]
            exact pyEqPairs_imp (fun a b => pyEq_ext e2) hpq

/-- C5: idempotence of `deepfreeze` on every graph it can freeze (success
of the first pass is exactly acyclicity along the frozen paths).  Freezing
the result again — with a fresh memo, as a new top-level call does —
succeeds and returns an `==`-equal value; and when the first result is a
`_Frozen` wrapper it is returned unchanged, with no additional wrapping
layer, because `_Frozen` is a recognized frozen type. -/
theorem freeze_idempotent (fuel : Nat) (h : List PVal) (g : Nat) (st1 : St)
    (j : Nat) (hdf : Freeze.deepfreeze fuel ⟨h, []⟩ g = some (st1, j)) :
    (∃ (fuel2 : Nat) (h2 : List PVal) (j' m : Nat),
       Freeze.deepfreeze fuel2 ⟨st1.heap, []⟩ j = some (⟨h2, []⟩, j')
         ∧ pyEq h2 m j' j = true)
    ∧ ∀ w : Nat, st1.heap[j]? = some (PVal.frozenW w) →
        Freeze.deepfreeze 1 ⟨st1.heap, []⟩ j = some (⟨st1.heap, []⟩, j) := by
  obtain ⟨_, _, n, hfz⟩ := freezeB fuel ⟨h, []⟩ g st1 j hdf
    (by intro p hp; simp at hp)
  constructor
  · obtain ⟨h2, j', m, hdf2, _, hpq⟩ := refreeze n st1.heap j hfz n (Nat.le_refl _)
    exact ⟨n, h2, j', m, hdf2, hpq⟩
  · intro w hw
    rw [Freeze.deepfreeze, hw]
    rfl

/-- Witness for C5 at the concrete graph `[2, [0]]` rooted at the list. -/
theorem freeze_idempotent_witness :
    Freeze.deepfreeze 3 ⟨[PVal.atom 2, PVal.list [0]], []⟩ 1
        = some (⟨[PVal.atom 2, PVal.list [0], PVal.list [0], PVal.tup [0]], []⟩, 3)
    ∧ ((∃ (fuel2 : Nat) (h2 : List PVal) (j' m : Nat),
          Freeze.deepfreeze fuel2
              ⟨[PVal.atom 2, PVal.list [0], PVal.list [0], PVal.tup [0]], []⟩ 3
            = some (⟨h2, []⟩, j') ∧ pyEq h2 m j' 3 = true)
        ∧ ∀ w : Nat,
            ([PVal.atom 2, PVal.list [0], PVal.list [0], PVal.tup [0]] :
              List PVal)[3]? = some (PVal.frozenW w) →
            Freeze.deepfreeze 1
                ⟨[PVal.atom 2, PVal.list [0], PVal.list [0], PVal.tup [0]], []⟩ 3
              = some (⟨[PVal.atom 2, PVal.list [0], PVal.list [0],
                  PVal.tup [0]], []⟩, 3)) :=
  ⟨rfl, freeze_idempotent 3 [PVal.atom 2, PVal.list [0]] 1
    ⟨[PVal.atom 2, PVal.list [0], PVal.list [0], PVal.tup [0]], []⟩ 3 rfl⟩

/-- C9: `deepfreeze` is not side-effect-free on its argument.  For an
instance with a `__dict__`, the object's own heap cell is overwritten in
place: afterwards it holds, under the same names and in the same order,
frozen values for every attribute not listed for its type in the exclusion
registry (`mutable_attributes`), while excluded attributes are untouched;
the returned proxy wraps that same mutated object. -/
theorem deepfreeze_mutates_object_attributes (fuel : Nat) (h : List PVal)
    (i : Nat) (ty : String) (ats : List (String × Nat)) (st2 : St) (j : Nat)
    (hv : h[i]? = some (PVal.obj ty ats))
    (hdf : Freeze.deepfreeze (fuel + 1) ⟨h, []⟩ i = some (st2, j)) :
    ∃ ats' : List (String × Nat),
      st2.heap[i]? = some (PVal.obj ty ats')
        ∧ List.Forall₂ (fun kv kv' => kv'.1 = kv.1
            ∧ (kv.1 ∈ Freeze.get_mutable_attributes ty → kv' = kv)
            ∧ (kv.1 ∉ Freeze.get_mutable_attributes ty →
                ∃ n, isFrozenVal st2.heap n kv'.2 = true)) ats ats'
        ∧ st2.heap[j]? = some (PVal.frozenW i) := by
  rw [Freeze.deepfreeze] at hdf
  dsimp only [List.lookup] at hdf
  rw [hv] at hdf
  dsimp only [Bind.bind, Option.bind] at hdf
  revert hdf
  cases hfa : Freeze.freezeAttrs (Freeze.deepfreeze fuel)
      (Freeze.get_mutable_attributes ty) ⟨h, []⟩ ats with
  | none => intro hdf; simp at hdf
  | some p =>
    obtain ⟨st1, ats'⟩ := p
    intro hdf
    dsimp only [Bind.bind, Option.bind] at hdf
    obtain ⟨e1, mf1, hrel⟩ := freezeAttrsB
      (fun s a s2 b hb hm => freezeB fuel s a s2 b hb hm) ats ⟨h, []⟩ st1 ats' hfa
      (by intro q hq; simp at hq)
    have hlt : i < st1.heap.length :=
      Nat.lt_of_lt_of_le (List.getElem?_eq_some.mp hv).1 e1.1
    have hobj1 : (setHeap st1 i (PVal.obj ty ats')).heap[i]?
        = some (PVal.obj ty ats') := by
      simp [setHeap, List.getElem?_set_self hlt]
    rw [_freeze_obj _ i ty ats' hobj1] at hdf
    dsimp only [setHeap, memoInsert] at hdf
    obtain ⟨rfl, rfl⟩ :
        (⟨(st1.heap.set i (PVal.obj ty ats')) ++ [PVal.frozenW i],
           (i, (st1.heap.set i (PVal.obj ty ats')).length) :: st1.memo⟩ : St) = st2
          ∧ (st1.heap.set i (PVal.obj ty ats')).length = j := by
      simpa using hdf
    have e2 : HeapExt st1.heap (st1.heap.set i (PVal.obj ty ats')) := by
      rcases e1.2 i _ hv with h1 | ⟨_, ty2, ats2, h2⟩
      · exact Ext_set_obj h1
      · exact Ext_set_obj h2
    have e3 : HeapExt (st1.heap.set i (PVal.obj ty ats'))
        ((st1.heap.set i (PVal.obj ty ats')) ++ [PVal.frozenW i]) :=
      Ext_append _ _
    refine ⟨ats', ?_, ?_, ?_⟩
    · have hlt2 : i < (st1.heap.set i (PVal.obj ty ats')).length := by
        simpa using hlt
      rw [List.getElem?_append, if_pos hlt2]
      simp [List.getElem?_set_self hlt]
    · refine List.Forall₂.imp ?_ hrel
      intro kv kv' hkv
      exact ⟨hkv.1, hkv.2.1, fun hnm =>
        (hkv.2.2 hnm).imp fun n hn => isFrozenVal_ext (Ext_trans e2 e3) hn⟩
    · rw [List.getElem?_concat_length]

/-- Witness for C9 at a concrete instance with one attribute. -/
theorem deepfreeze_mutates_object_attributes_witness :
    ([PVal.atom 5, PVal.obj "T" [("x", 0)]] : List PVal)[1]?
        = some (PVal.obj "T" [("x", 0)])
    ∧ Freeze.deepfreeze 3 ⟨[PVal.atom 5, PVal.obj "T" [("x", 0)]], []⟩ 1
        = some (⟨[PVal.atom 5, PVal.obj "T" [("x", 0)], PVal.frozenW 1],
            [(1, 2)]⟩, 2)
    ∧ ∃ ats' : List (String × Nat),
        (⟨[PVal.atom 5, PVal.obj "T" [("x", 0)], PVal.frozenW 1],
            [(1, 2)]⟩ : St).heap[1]? = some (PVal.obj "T" ats')
          ∧ List.Forall₂ (fun kv kv' => kv'.1 = kv.1
              ∧ (kv.1 ∈ Freeze.get_mutable_attributes "T" → kv' = kv)
              ∧ (kv.1 ∉ Freeze.get_mutable_attributes "T" →
                  ∃ n, isFrozenVal (⟨[PVal.atom 5, PVal.obj "T" [("x", 0)],
                      PVal.frozenW 1], [(1, 2)]⟩ : St).heap n kv'.2 = true))
            [("x", 0)] ats'
          ∧ (⟨[PVal.atom 5, PVal.obj "T" [("x", 0)], PVal.frozenW 1],
              [(1, 2)]⟩ : St).heap[2]? = some (PVal.frozenW 1) :=
  ⟨rfl, rfl, deepfreeze_mutates_object_attributes 2
    [PVal.atom 5, PVal.obj "T" [("x", 0)]] 1 "T" [("x", 0)]
    ⟨[PVal.atom 5, PVal.obj "T" [("x", 0)], PVal.frozenW 1], [(1, 2)]⟩ 2 rfl rfl⟩
